import Mathlib

/-!
Verification development for the documentation snapshot-and-retrieval bot
(`bot_simple.py`): a shallow embedding in Lean 4 of the URL allowlist
(`DocsIndex`), the keyword matcher (`find_best_match`), the sitemap refresh
logic (`DocsIndex.refresh`), the link validation and repair pass
(`validate_and_fix_urls` and its helpers), and the Discord URL wrapper
(`wrap_urls_for_discord`), together with theorems settling the spec claims.

Text is modelled as `List Char` internally; `String` wrappers carry the
source names.  Machine details modelled: Python `re` scanning is embedded as
explicit left-to-right scanners with the same greedy/give-back behaviour;
`datetime` instants are seconds as `Nat`; network effects are oracles passed
as arguments.
-/

/-- Character class of Python `\s` restricted to ASCII (space, tab, newline,
carriage return, vertical tab, form feed). -/
def isPySpace (c : Char) : Bool :=
  c == ' ' || c == '\t' || c == '\n' || c == '\r' || c == '\x0b' || c == '\x0c'

/-- Characters allowed inside a URL by the character class `[^\s<>\)]` used in
every URL pattern of the source. -/
def isUrlChar (c : Char) : Bool :=
  !(isPySpace c || c == '<' || c == '>' || c == ')')

/-- The characters of the scheme marker `https://`. -/
def httpsChars : List Char := ['h', 't', 't', 'p', 's', ':', '/', '/']

/-- The characters of the scheme marker `http://`. -/
def httpChars : List Char := ['h', 't', 't', 'p', ':', '/', '/']

/-- The four characters `http`, the common start of both scheme markers. -/
def httpPat : List Char := ['h', 't', 't', 'p']

/-- Try to read the regex piece `https?://` at the start of `cs`: returns the
matched scheme characters and the remainder.  `https://` is preferred, as the
greedy `s?` does in Python. -/
def tryProto (cs : List Char) : Option (List Char × List Char) :=
  if httpsChars.isPrefixOf cs then some (httpsChars, cs.drop 8)
  else if httpChars.isPrefixOf cs then some (httpChars, cs.drop 7)
  else none

/-- Fuelled left-to-right scanner embedding
`re.sub(r'(?<!<)(https?://[^\s<>\)]+)(?!>)', r'<\1>', text)` from
`wrap_urls_for_discord` (source lines 243-249).  The Bool argument records
whether the previous character of the original text is `<` (the lookbehind).
On a candidate match the greedy run of URL characters is taken; if the next
character is `>` (the lookahead fails) the regex gives back exactly one run
character, which succeeds when at least one character remains after `://`
(the given-back character is a URL character, hence not `>`), and otherwise
the position does not match at all.  Scanning resumes after each match, as
`re.sub` does.  Fuel is the remaining length; `scan` supplies enough. -/
def scanF : Nat → Bool → List Char → List Char
  | 0, _, cs => cs
  | _ + 1, _, [] => []
  | n + 1, p, c :: rest =>
    if p then
      c :: scanF n (c == '<') rest
    else
      match tryProto (c :: rest) with
      | none => c :: scanF n (c == '<') rest
      | some (proto, after) =>
        let run := after.takeWhile isUrlChar
        let tl := after.dropWhile isUrlChar
        if run = [] then c :: scanF n (c == '<') rest
        else if tl.head? = some '>' then
          if 2 ≤ run.length then
            '<' :: (proto ++ run.dropLast) ++ '>' :: scanF n false (run.getLastD 'x' :: tl)
          else c :: scanF n (c == '<') rest
        else '<' :: (proto ++ run) ++ '>' :: scanF n false tl

/-- The scanner with sufficient fuel. -/
def scan (p : Bool) (cs : List Char) : List Char := scanF cs.length p cs

/-- Embedding of `wrap_urls_for_discord` (source lines 243-249): wrap bare
URLs in angle brackets to prevent embeds. -/
def wrap_urls_for_discord (text : String) : String := ⟨scan false text.data⟩

example : wrap_urls_for_discord "https://xhttps://yz" = "<https://xhttps://yz>" := by decide

example :
    wrap_urls_for_discord "<https://xhttps://yz>" = "<https://x<https://y>z>" := by decide

example :
    wrap_urls_for_discord "[docs](https://docs.zocomputer.com/intro)" =
      "[docs](<https://docs.zocomputer.com/intro>)" := by decide

example :
    wrap_urls_for_discord "<https://a> and https://b and https://c> ok" =
      "<https://a> and <https://b> and https://c> ok" := by decide

example : wrap_urls_for_discord "https://https://a>" = "<https://https://>a>" := by decide

example : wrap_urls_for_discord "xhttps://a" = "x<https://a>" := by decide

/-- Locate the first occurrence of `://` in a URL and return what follows it.
Supports the `urlparse` model below for `scheme://netloc/path` URLs. -/
def afterSchemeMark : List Char → Option (List Char)
  | [] => none
  | c :: rest =>
    if [':', '/', '/'].isPrefixOf (c :: rest) then some ((c :: rest).drop 3)
    else afterSchemeMark rest

/-- Model of `urlparse(url).path` for `scheme://host/path` URLs: strip the
fragment (first `#`) and query (first `?`), skip the scheme marker and the
netloc (up to the next `/`); the path keeps its leading slash.  A string with
no scheme marker is all path, as in `urlparse`. -/
def urlPathL (cs : List Char) : List Char :=
  let noFrag := (cs.takeWhile (· != '#')).takeWhile (· != '?')
  match afterSchemeMark noFrag with
  | some r => r.dropWhile (· != '/')
  | none => noFrag

/-- Model of `urlparse(url).netloc` for `scheme://host/path` URLs. -/
def urlNetlocL (cs : List Char) : List Char :=
  let noFrag := (cs.takeWhile (· != '#')).takeWhile (· != '?')
  match afterSchemeMark noFrag with
  | some r => r.takeWhile (· != '/')
  | none => []

/-- String wrapper for `urlPathL`. -/
def urlpath (url : String) : String := ⟨urlPathL url.data⟩

/-- String wrapper for `urlNetlocL`. -/
def urlnetloc (url : String) : String := ⟨urlNetlocL url.data⟩

/-- Remove every trailing `/`, as Python `str.rstrip('/')` does. -/
def rstripSlash (cs : List Char) : List Char :=
  (cs.reverse.dropWhile (· == '/')).reverse

/-- The shared basic URL normalization
`url.split('#')[0].split('?')[0].rstrip('/')` used by `is_valid_url` (source
line 106) and `validate_url` (source line 279). -/
def basicNormL (cs : List Char) : List Char :=
  rstripSlash ((cs.takeWhile (· != '#')).takeWhile (· != '?'))

/-- String wrapper for `basicNormL`. -/
def basic_normalize (url : String) : String := ⟨basicNormL url.data⟩

/-- The six characters of the suffix `/intro`. -/
def introSuffix : List Char := ['/', 'i', 'n', 't', 'r', 'o']

/-- Canonicalize a URL ending in `/intro` to the bare section root by
removing the six-character suffix (source lines 107-108). -/
def introStripL (cs : List Char) : List Char :=
  if introSuffix.isSuffixOf cs then cs.take (cs.length - 6) else cs

/-- Full URL normalization performed by `is_valid_url` (source lines
103-109): strip fragment, query and trailing slashes, then canonicalize a
trailing `/intro`. -/
def normalizeUrlL (cs : List Char) : List Char := introStripL (basicNormL cs)

/-- String wrapper for `normalizeUrlL`. -/
def normalize_url (url : String) : String := ⟨normalizeUrlL url.data⟩

/-- Python `str.startswith`, on the character lists of the two strings. -/
def strStartsWith (p s : String) : Bool := p.data.isPrefixOf s.data

/-- Python `str.endswith`, on the character lists of the two strings. -/
def strEndsWith (p s : String) : Bool := p.data.isSuffixOf s.data

/-- Documentation origin constant (source line 28). -/
def DOCS_BASE_URL : String := "https://docs.zocomputer.com"

/-- Introduction page constant (source line 30). -/
def DOCS_INTRO_URL : String := DOCS_BASE_URL ++ "/intro"

/-- Refresh interval constant in hours (source line 31). -/
def SITEMAP_REFRESH_INTERVAL_HOURS : Nat := 12

/-- The refresh interval as seconds, the unit of the time model. -/
def refreshIntervalSeconds : Nat := SITEMAP_REFRESH_INTERVAL_HOURS * 3600

/-- Mutable state of a `DocsIndex` (source lines 37-42): the URL allowlist,
the derived path-segment index, and the time of the last successful refresh
(`None` before the first success).  Python's `set` iteration order is
unspecified; the embedding keeps first-occurrence order in a list. -/
structure DocsState where
  valid_urls : List String
  url_path_segments : List (String × List String)
  last_refresh : Option Nat
deriving DecidableEq

/-- Keys contributed by one URL to the path-segment index (source lines
87-95): the path is stripped of surrounding slashes, split on `/`, and every
non-empty segment sequence joined back is a key. -/
def pathKeys (url : String) : List String :=
  let p : List Char := rstripSlash ((urlPathL url.data).dropWhile (· == '/'))
  if p = [] then []
  else
    let segs := (String.mk p).splitOn "/"
    (List.range segs.length).map fun i => String.intercalate "/" (segs.take (i + 1))

/-- Append `url` to the entry of `key` in the segment index, creating the
entry when absent, as `defaultdict(list)` append does. -/
def addSeg (d : List (String × List String)) (key url : String) :
    List (String × List String) :=
  if d.any (fun kv => kv.1 == key) then
    d.map fun kv => if kv.1 == key then (kv.1, kv.2 ++ [url]) else kv
  else d ++ [(key, [url])]

/-- Build the path-segment index from the allowlist (source lines 86-95). -/
def buildSegments (urls : List String) : List (String × List String) :=
  urls.foldl (fun d url => (pathKeys url).foldl (fun d k => addSeg d k url) d) []

/-- Result of `ET.fromstring` on the sitemap body: either a parse exception,
or the parsed list of stripped `<loc>` texts in document order. -/
inductive SitemapXml where
  | malformed
  | parsed (locs : List String)
deriving DecidableEq

/-- Outcome the network would produce for the sitemap fetch: a transport
exception (raised by `session.get` or `response.text`), or a response with a
status code and a body. -/
inductive FetchOutcome where
  | transportError
  | response (status : Nat) (body : SitemapXml)
deriving DecidableEq

/-- Body of the `try` block of `DocsIndex.refresh` (source lines 63-99):
a non-200 status returns early with the state unchanged; a transport or
parse exception escapes as `Except.error`; a parsed sitemap replaces the
allowlist with the in-origin URLs, rebuilds the segment index and stamps the
refresh time. -/
def refreshInner (st : DocsState) (now : Nat) (net : FetchOutcome) :
    Except String DocsState :=
  match net with
  | .transportError => .error "ClientError"
  | .response status body =>
    if status ≠ 200 then .ok st
    else
      match body with
      | .malformed => .error "ParseError"
      | .parsed locs =>
        let urls := locs.filter fun u => strStartsWith DOCS_BASE_URL u
        let vu := urls.dedup
        .ok { valid_urls := vu, url_path_segments := buildSegments vu,
              last_refresh := some now }

/-- Embedding of `DocsIndex.refresh` (source lines 50-101).  The skip check
mirrors `if not force and self.last_refresh` with the age comparison; the
`except` clause catches any error from the body, logging it and keeping the
prior state.  The returned Bool records whether a sitemap fetch was
attempted. -/
def refresh (st : DocsState) (force : Bool) (now : Nat) (net : FetchOutcome) :
    DocsState × Bool :=
  if !force && (match st.last_refresh with
      | some t => decide (now - t < refreshIntervalSeconds)
      | none => false) then
    (st, false)
  else
    match refreshInner st now net with
    | .ok st' => (st', true)
    | .error _ => (st, true)

/-- Membership check of `DocsIndex.is_valid_url` (source lines 103-109). -/
def is_valid_url (validUrls : List String) (url : String) : Bool :=
  validUrls.contains (normalize_url url) || validUrls.contains url

/-- Character class of Python `\w` restricted to ASCII. -/
def isWordChar (c : Char) : Bool := c.isAlphanum || c == '_'

/-- Fuelled extraction of the maximal word-character runs of a text, the
matches of `re.findall(r'\b\w+\b', text)`. -/
def wordRunsF : Nat → List Char → List (List Char)
  | 0, _ => []
  | _ + 1, [] => []
  | n + 1, c :: rest =>
    if isWordChar c then
      (c :: rest.takeWhile isWordChar) :: wordRunsF n (rest.dropWhile isWordChar)
    else wordRunsF n rest

/-- Word runs with sufficient fuel. -/
def wordRuns (cs : List Char) : List (List Char) := wordRunsF cs.length cs

/-- Query words of `find_best_match` (source lines 113-114): lower-case the
query, take the word runs, deduplicate (`set`; the embedding fixes
first-occurrence order, which no score depends on). -/
def queryWords (query : String) : List (List Char) :=
  (wordRuns (query.data.map Char.toLower)).dedup

/-- Substring containment, Python's `in` on strings. -/
def substrB (pat : List Char) : List Char → Bool
  | [] => pat.isEmpty
  | c :: rest => pat.isPrefixOf (c :: rest) || substrB pat rest

/-- Score of one URL in `find_best_match` (source lines 118-128): each query
word longer than two characters adds 1 when contained in the lower-cased
path and 2 more when `/word` is contained in the path or the path ends with
the word. -/
def scoreUrl (words : List (List Char)) (url : String) : Nat :=
  let path := (urlPathL url.data).map Char.toLower
  words.foldl
    (fun s w =>
      if 2 < w.length then
        s + (if substrB w path then 1 else 0) +
          (if substrB ('/' :: w) path || w.isSuffixOf path then 2 else 0)
      else s)
    0

/-- Insert into a list sorted by weakly descending score, after any element
of equal score: the stable descending sort of Python's
`sort(reverse=True, key=score)`. -/
def insertScored (x : Nat × String) : List (Nat × String) → List (Nat × String)
  | [] => [x]
  | y :: ys => if x.1 < y.1 then y :: insertScored x ys else x :: y :: ys

/-- Stable descending sort by score. -/
def sortScored (l : List (Nat × String)) : List (Nat × String) :=
  l.foldr insertScored []

/-- Embedding of `DocsIndex.find_best_match` (source lines 111-135): score
every allowlist URL, keep the positively scored ones, sort stably by
descending score and return the top five URLs. -/
def find_best_match (query : String) (validUrls : List String) : List String :=
  let qw := queryWords query
  let scored := validUrls.filterMap fun u =>
    let sc := scoreUrl qw u
    if 0 < sc then some (sc, u) else none
  ((sortScored scored).take 5).map Prod.snd

example :
    find_best_match "gui"
      ["https://docs.zocomputer.com/guide", "https://docs.zocomputer.com/x/gui"] =
      ["https://docs.zocomputer.com/guide", "https://docs.zocomputer.com/x/gui"] := by
  decide

example :
    find_best_match "See https://docs.zocomputer.com/guide for info"
      ["https://docs.zocomputer.com/pricing"] = [] := by decide

example :
    (refresh ⟨["https://docs.zocomputer.com/a"], buildSegments ["https://docs.zocomputer.com/a"],
        some 5⟩ true 100 (.response 200 (.parsed []))).1.valid_urls = [] := by decide

/-- A successfully fetched documentation page as returned by
`fetch_page_content` (source lines 205-209). -/
structure Page where
  url : String
  title : String
  content : String
deriving DecidableEq

/-- Candidate URLs of `retrieve_relevant_docs` (source lines 218-222): the
best matches, or the introduction page when there are none. -/
def retrieveCandidates (validUrls : List String) (query : String) : List String :=
  let candidates := find_best_match query validUrls
  if candidates = [] then [DOCS_INTRO_URL] else candidates

/-- The URLs `retrieve_relevant_docs` fetches over the network (source line
225): the first `max_pages` candidates, each passed to
`fetch_page_content`. -/
def retrieveFetchedUrls (validUrls : List String) (query : String)
    (maxPages : Nat) : List String :=
  (retrieveCandidates validUrls query).take maxPages

/-- Embedding of `DocRetriever.retrieve_relevant_docs` (source lines
215-235).  The network is the oracle `net`: `none` covers both a failed
fetch (`fetch_page_content` returns `None`) and a gathered exception, which
are only logged. -/
def retrieve_relevant_docs (validUrls : List String) (query : String)
    (maxPages : Nat) (net : String → Option Page) : List Page :=
  (retrieveFetchedUrls validUrls query maxPages).filterMap net

/-- Fuelled scanner for `re.findall(r'https?://[^\s<>\)]+', text)`, the bare
URL pattern of `extract_urls_from_text` (source line 256). -/
def findBareF : Nat → List Char → List (List Char)
  | 0, _ => []
  | _ + 1, [] => []
  | n + 1, c :: rest =>
    match tryProto (c :: rest) with
    | some (proto, after) =>
      let run := after.takeWhile isUrlChar
      if run = [] then findBareF n rest
      else (proto ++ run) :: findBareF n (after.dropWhile isUrlChar)
    | none => findBareF n rest

/-- Fuelled scanner for `re.findall(r'<https?://[^\s<>\)]+>', text)` (source
line 257).  The surrounding angle brackets, stripped afterwards by
`match.strip('<>')`, are not included in the returned URL. -/
def findWrappedF : Nat → List Char → List (List Char)
  | 0, _ => []
  | _ + 1, [] => []
  | n + 1, c :: rest =>
    if c = '<' then
      match tryProto rest with
      | some (proto, after) =>
        let run := after.takeWhile isUrlChar
        let tl := after.dropWhile isUrlChar
        if run ≠ [] ∧ tl.head? = some '>' then (proto ++ run) :: findWrappedF n tl.tail
        else findWrappedF n rest
      | none => findWrappedF n rest
    else findWrappedF n rest

/-- Fuelled scanner for
`re.findall(r'\[([^\]]+)\]\(<?(https?://[^\s<>\)]+)>?\)', text)` (source
line 258), keeping the URL group as the source does for tuple matches.  A
failed attempt resumes one character after the opening bracket, as the regex
engine does; nothing inside a matched region is rescanned. -/
def findMdF : Nat → List Char → List (List Char)
  | 0, _ => []
  | _ + 1, [] => []
  | n + 1, c :: rest =>
    if c = '[' then
      match rest.takeWhile (· != ']'), rest.dropWhile (· != ']') with
      | _ :: _, ']' :: '(' :: r2 =>
        let r3 := if r2.head? = some '<' then r2.tail else r2
        match tryProto r3 with
        | some (proto, after) =>
          let run := after.takeWhile isUrlChar
          if run = [] then findMdF n rest
          else
            match after.dropWhile isUrlChar with
            | '>' :: ')' :: r4 => (proto ++ run) :: findMdF n r4
            | ')' :: r4 => (proto ++ run) :: findMdF n r4
            | _ => findMdF n rest
        | none => findMdF n rest
      | _, _ => findMdF n rest
    else findMdF n rest

/-- Embedding of `extract_urls_from_text` (source lines 252-272): the three
pattern scans concatenated, deduplicated.  Python's `list(set(urls))` order
is unspecified; the embedding keeps first-occurrence order. -/
def extract_urls_from_text (text : String) : List String :=
  let cs := text.data
  ((findBareF cs.length cs ++ findWrappedF cs.length cs ++ findMdF cs.length cs).map
    fun u => String.mk u).dedup

/-- Outcome the network would produce for a liveness probe of one URL:
an exception anywhere in the probe, or the status codes that the HEAD and
the fallback GET request would return. -/
inductive ProbeOutcome where
  | exn
  | probed (headStatus : Nat) (getStatus : Nat)
deriving DecidableEq

/-- Embedding of `validate_url` (source lines 275-297): normalize, probe
with HEAD (200 valid, 404 invalid), fall back to GET (200 valid, else
invalid), any exception invalid. -/
def validate_url (net : String → ProbeOutcome) (url : String) :
    Bool × Option String :=
  let normalized := basic_normalize url
  match net normalized with
  | .exn => (false, none)
  | .probed hs gs =>
    if hs = 200 then (true, some normalized)
    else if hs = 404 then (false, none)
    else if gs = 200 then (true, some normalized)
    else (false, none)

/-- Index of the first occurrence of `pat` in `s`, or `none`. -/
def firstIndexAux : Nat → List Char → List Char → Option Nat
  | 0, _, _ => none
  | _ + 1, pat, [] => if pat.isEmpty then some 0 else none
  | n + 1, pat, c :: rest =>
    if pat.isPrefixOf (c :: rest) then some 0
    else (firstIndexAux n pat rest).map (· + 1)

/-- Python `text.find(pat)`: first index, or `-1` when absent. -/
def strFind (text pat : String) : Int :=
  match firstIndexAux (text.data.length + 1) pat.data text.data with
  | some i => (i : Int)
  | none => -1

/-- The context slice `text[max(0, i-50) : min(len(text), i+len(url)+50)]`
around the first occurrence of `url` (source lines 315-317). -/
def contextAround (text url : String) : String :=
  let i : Int := strFind text url
  let start : Int := max 0 (i - 50)
  let stop : Int := min (text.data.length : Int) (i + url.data.length + 50)
  ⟨(text.data.drop start.toNat).take (stop - start).toNat⟩

/-- The replacement entry that `validate_and_fix_urls` (source lines
305-347) records for one extracted URL: docs-origin URLs missing from the
allowlist are replaced by the best keyword match over the surrounding
context or the introduction page; allowlisted docs URLs failing the
liveness probe are replaced likewise (query = the URL itself); live
allowlisted URLs whose normalized form differs are replaced by it; non-docs
URLs are never replaced. -/
def replacementFor (text : String) (validUrls : List String)
    (net : String → ProbeOutcome) (url : String) : Option (String × String) :=
  if urlnetloc url = "docs.zocomputer.com" ∨
      strEndsWith ".zocomputer.com" (urlnetloc url) then
    if !is_valid_url validUrls url then
      let context := contextAround text url
      let cands := find_best_match context validUrls
      some (url, cands.headD DOCS_INTRO_URL)
    else
      match validate_url net url with
      | (false, _) =>
        let cands := find_best_match url validUrls
        some (url, cands.headD DOCS_INTRO_URL)
      | (true, some normalized) =>
        if normalized ≠ url then some (url, normalized) else none
      | (true, none) => none
  else none

/-- The ordered replacement map of `validate_and_fix_urls` (source lines
303-347). -/
def compute_replacements (text : String) (validUrls : List String)
    (net : String → ProbeOutcome) : List (String × String) :=
  (extract_urls_from_text text).filterMap (replacementFor text validUrls net)

/-- Fuelled Python `str.replace`: replace leftmost non-overlapping
occurrences.  Every caller passes a non-empty pattern. -/
def replaceAllF : Nat → List Char → List Char → List Char → List Char
  | 0, s, _, _ => s
  | _ + 1, [], _, _ => []
  | n + 1, c :: rest, old, new =>
    if !old.isEmpty && old.isPrefixOf (c :: rest) then
      new ++ replaceAllF n ((c :: rest).drop old.length) old new
    else c :: replaceAllF n rest old new

/-- Python `str.replace` with sufficient fuel. -/
def replaceAll (s old new : List Char) : List Char := replaceAllF s.length s old new

/-- Fuelled scanner for the markdown-form rewrite
`re.sub(r'\[([^\]]+)\]\(<?' + re.escape(old) + r'>?\)', rf'[\1](<new>)', t)`
of source lines 355-359. -/
def mdSubF : Nat → List Char → List Char → List Char → List Char
  | 0, s, _, _ => s
  | _ + 1, [], _, _ => []
  | n + 1, c :: rest, old, new =>
    if c = '[' then
      match rest.takeWhile (· != ']'), rest.dropWhile (· != ']') with
      | _ :: _, ']' :: '(' :: r2 =>
        let label := rest.takeWhile (· != ']')
        let r3 := if r2.head? = some '<' then r2.tail else r2
        if old.isPrefixOf r3 then
          match r3.drop old.length with
          | '>' :: ')' :: r5 =>
            '[' :: label ++ ']' :: '(' :: '<' :: new ++ '>' :: ')' :: mdSubF n r5 old new
          | ')' :: r5 =>
            '[' :: label ++ ']' :: '(' :: '<' :: new ++ '>' :: ')' :: mdSubF n r5 old new
          | _ => c :: mdSubF n rest old new
        else c :: mdSubF n rest old new
      | _, _ => c :: mdSubF n rest old new
    else c :: mdSubF n rest old new

/-- Application of one replacement in the three surface forms (source lines
351-359): plain substring, angle-wrapped, markdown link. -/
def applyReplacement (t : List Char) (old new : String) : List Char :=
  let t1 := replaceAll t old.data new.data
  let t2 := replaceAll t1 ('<' :: old.data ++ ['>']) ('<' :: new.data ++ ['>'])
  mdSubF t2.length t2 old.data new.data

/-- Embedding of `validate_and_fix_urls` (source lines 300-361). -/
def validate_and_fix_urls (text : String) (validUrls : List String)
    (net : String → ProbeOutcome) : String :=
  let reps := compute_replacements text validUrls net
  ⟨reps.foldl (fun t p => applyReplacement t p.1 p.2) text.data⟩

example :
    extract_urls_from_text "See https://docs.zocomputer.com/guide for info" =
      ["https://docs.zocomputer.com/guide"] := by decide

example :
    validate_and_fix_urls "See https://docs.zocomputer.com/guide for info"
      ["https://docs.zocomputer.com/pricing"] (fun _ => .exn) =
      "See https://docs.zocomputer.com/intro for info" := by decide

example : urlnetloc "https://docs.zocomputer.com/guide" = "docs.zocomputer.com" := by decide

/-- Elements survive `introStripL`. -/
lemma introStripL_sublist (cs : List Char) : (introStripL cs).Sublist cs := by
  unfold introStripL
  split
  · exact List.take_sublist _ _
  · exact List.Sublist.refl _

/-- Elements survive `rstripSlash`. -/
lemma rstripSlash_sublist (cs : List Char) : (rstripSlash cs).Sublist cs := by
  have h := (List.dropWhile_sublist (l := cs.reverse) (· == '/')).reverse
  simpa [rstripSlash] using h

/-- Every character of a normalized URL is neither `#` nor `?`. -/
lemma normalizeUrlL_mem (cs : List Char) {c : Char} (h : c ∈ normalizeUrlL cs) :
    (c != '#') = true ∧ (c != '?') = true := by
  have s1 := introStripL_sublist (basicNormL cs)
  have s2 := rstripSlash_sublist ((cs.takeWhile (· != '#')).takeWhile (· != '?'))
  have h2 : c ∈ (cs.takeWhile (· != '#')).takeWhile (· != '?') := s2.mem (s1.mem h)
  have h3 : c ∈ cs.takeWhile (· != '#') := (List.takeWhile_sublist _).mem h2
  have hq := List.mem_takeWhile_imp h2
  have hp := List.mem_takeWhile_imp h3
  exact ⟨hp, hq⟩

/-- A list not ending in `/` is unchanged by `rstripSlash`. -/
lemma rstripSlash_eq_self (cs : List Char) (h : cs.getLast? ≠ some '/') :
    rstripSlash cs = cs := by
  unfold rstripSlash
  rw [show cs.reverse.dropWhile (· == '/') = cs.reverse from ?_, List.reverse_reverse]
  cases hr : cs.reverse with
  | nil => rfl
  | cons d ds =>
    rw [List.dropWhile_cons, if_neg]
    intro hd
    apply h
    rw [List.getLast?_eq_head?_reverse, hr]
    simpa using hd

/-- Idempotence of the `is_valid_url` normalization on every list whose
normal form ends neither in a slash nor in the `/intro` suffix. -/
lemma normalizeUrlL_idem (cs : List Char)
    (h1 : (normalizeUrlL cs).getLast? ≠ some '/')
    (h2 : introSuffix.isSuffixOf (normalizeUrlL cs) = false) :
    normalizeUrlL (normalizeUrlL cs) = normalizeUrlL cs := by
  have hmem := fun c hc => normalizeUrlL_mem cs (c := c) hc
  have t1 : (normalizeUrlL cs).takeWhile (· != '#') = normalizeUrlL cs :=
    List.takeWhile_eq_self_iff.mpr fun c hc => (hmem c hc).1
  have t2 : (normalizeUrlL cs).takeWhile (· != '?') = normalizeUrlL cs :=
    List.takeWhile_eq_self_iff.mpr fun c hc => (hmem c hc).2
  show introStripL (basicNormL (normalizeUrlL cs)) = normalizeUrlL cs
  rw [basicNormL, t1, t2, rstripSlash_eq_self _ h1, introStripL, if_neg (by simp [h2])]

/-- C5, corrected.  The normalization of `is_valid_url` is idempotent on
every URL whose normalized form ends neither in `/` nor in `/intro`; the
counterexample shows both exceptions are reachable from allowlist URLs. -/
theorem c5_amended (u : String)
    (h1 : (normalizeUrlL u.data).getLast? ≠ some '/')
    (h2 : introSuffix.isSuffixOf (normalizeUrlL u.data) = false) :
    normalize_url (normalize_url u) = normalize_url u := by
  show (⟨normalizeUrlL (normalizeUrlL u.data)⟩ : String) = ⟨normalizeUrlL u.data⟩
  rw [normalizeUrlL_idem u.data h1 h2]

/-- Witness for `c5_amended` at a concrete URL. -/
theorem c5_witness :
    normalize_url (normalize_url "https://docs.zocomputer.com/pricing") =
      normalize_url "https://docs.zocomputer.com/pricing" :=
  c5_amended "https://docs.zocomputer.com/pricing" (by decide) (by decide)

/-- C5, counterexample to the claim as stated: the sitemap URL
`https://docs.zocomputer.com/intro/intro` lands in the allowlist verbatim,
and normalization is not idempotent on it: one pass gives
`…/intro`, a second pass gives the bare origin. -/
theorem c5_counterexample :
    (refresh ⟨[], [], none⟩ true 0
        (.response 200 (.parsed ["https://docs.zocomputer.com/intro/intro"]))).1.valid_urls =
        ["https://docs.zocomputer.com/intro/intro"] ∧
      normalize_url (normalize_url "https://docs.zocomputer.com/intro/intro") ≠
        normalize_url "https://docs.zocomputer.com/intro/intro" := by decide

/-- C1, amended.  `refresh` leaves the whole prior state intact on a non-200
status, a transport error, or a parse error; but a 200 response whose parsed
sitemap holds zero in-origin URLs is not treated as a failure: it replaces
the allowlist with the empty set and stamps a fresh refresh time. -/
theorem c1_amended :
    (∀ (st : DocsState) (force : Bool) (now : Nat) (net : FetchOutcome),
        (net = .transportError ∨ (∃ s b, net = .response s b ∧ s ≠ 200) ∨
          ∃ s, net = .response s .malformed) →
        (refresh st force now net).1 = st) ∧
    ∀ (st : DocsState) (now : Nat),
      refresh st true now (.response 200 (.parsed [])) = (⟨[], [], some now⟩, true) := by
  constructor
  · intro st force now net h
    unfold refresh
    split
    · rfl
    · rcases h with rfl | ⟨s, b, rfl, hs⟩ | ⟨s, rfl⟩
      · rfl
      · simp only [refreshInner, if_pos hs]
      · by_cases hs : s = 200
        · subst hs
          simp [refreshInner]
        · simp only [refreshInner, if_pos hs]
  · intro st now
    simp [refresh, refreshInner, buildSegments]

/-- Witness for `c1_amended` at concrete failures. -/
theorem c1_witness :
    (refresh ⟨["https://docs.zocomputer.com/a"], [], some 0⟩ true 99
        (.response 500 (.parsed ["https://docs.zocomputer.com/b"]))).1 =
      ⟨["https://docs.zocomputer.com/a"], [], some 0⟩ :=
  c1_amended.1 _ true 99 _ (Or.inr (Or.inl ⟨500, _, rfl, by decide⟩))

/-- C1, counterexample to the claim as stated: a 200 sitemap response that
parses to zero URLs is one of the failure modes the claim lists, yet it
erases the previous allowlist instead of leaving it intact. -/
theorem c1_counterexample :
    (refresh ⟨["https://docs.zocomputer.com/a"], buildSegments ["https://docs.zocomputer.com/a"],
        some 0⟩ true 100 (.response 200 (.parsed []))).1 ≠
      ⟨["https://docs.zocomputer.com/a"], buildSegments ["https://docs.zocomputer.com/a"],
        some 0⟩ := by decide

/-- C10, confirmed.  The body of `refresh` signals an exception only through
`Except.error`; a non-200 status is an early `return` with the state kept,
and `refresh` catches every body error, returning the prior state normally. -/
theorem c10_no_exception_escapes :
    (∀ (st : DocsState) (now s : Nat) (b : SitemapXml), s ≠ 200 →
        refreshInner st now (.response s b) = Except.ok st) ∧
    ∀ (st : DocsState) (force : Bool) (now : Nat) (net : FetchOutcome) (e : String),
      refreshInner st now net = Except.error e →
      refresh st force now net = (st, true) ∨ refresh st force now net = (st, false) := by
  constructor
  · intro st now s b hs
    simp only [refreshInner, if_pos hs]
  · intro st force now net e h
    unfold refresh
    split
    · exact Or.inr rfl
    · rw [h]
      exact Or.inl rfl

/-- Witness for `c10_no_exception_escapes` at concrete outcomes. -/
theorem c10_witness :
    refreshInner ⟨[], [], none⟩ 0 (.response 500 .malformed) = Except.ok ⟨[], [], none⟩ ∧
      (refresh ⟨[], [], none⟩ true 0 .transportError = (⟨[], [], none⟩, true) ∨
        refresh ⟨[], [], none⟩ true 0 .transportError = (⟨[], [], none⟩, false)) :=
  ⟨c10_no_exception_escapes.1 _ 0 500 .malformed (by decide),
    c10_no_exception_escapes.2 _ true 0 _ "ClientError" rfl⟩

/-- C8, amended.  The skip condition is as claimed: with `force` false and a
fresh snapshot, `refresh` returns at once without fetching.  The two-call
consequence holds when the first call's sitemap fetch would succeed (HTTP
200, well-formed body): then two calls within one interval perform at most
one fetch.  The counterexample shows failing fetches are not rate limited. -/
theorem c8_amended :
    (∀ (st : DocsState) (t now : Nat) (net : FetchOutcome),
        st.last_refresh = some t → now - t < refreshIntervalSeconds →
        refresh st false now net = (st, false)) ∧
    ∀ (st : DocsState) (t1 t2 : Nat) (locs : List String) (net2 : FetchOutcome),
      t2 - t1 < refreshIntervalSeconds →
      (refresh st false t1 (.response 200 (.parsed locs))).2.toNat +
        (refresh (refresh st false t1 (.response 200 (.parsed locs))).1 false t2 net2).2.toNat
        ≤ 1 := by
  constructor
  · intro st t now net hlast hage
    unfold refresh
    rw [if_pos]
    simp [hlast, hage]
  · intro st t1 t2 locs net2 hage
    by_cases hskip : (!false && (match st.last_refresh with
        | some t => decide (t1 - t < refreshIntervalSeconds)
        | none => false)) = true
    · have h1 : refresh st false t1 (.response 200 (.parsed locs)) = (st, false) := by
        unfold refresh
        rw [if_pos hskip]
      rw [h1]
      cases h2 : (refresh st false t2 net2).2 <;> simp
    · have h1 : (refresh st false t1 (.response 200 (.parsed locs))).2 = true := by
        unfold refresh
        rw [if_neg hskip]
        rfl
      have hlast : (refresh st false t1 (.response 200 (.parsed locs))).1.last_refresh =
          some t1 := by
        unfold refresh
        rw [if_neg hskip]
        rfl
      have hc : (!false && (match (refresh st false t1
            (.response 200 (.parsed locs))).1.last_refresh with
          | some t => decide (t2 - t < refreshIntervalSeconds)
          | none => false)) = true := by
        rw [hlast]
        simpa using hage
      have h2 : (refresh (refresh st false t1 (.response 200 (.parsed locs))).1
          false t2 net2).2 = false := by
        conv_lhs => rw [refresh]
        rw [if_pos hc]
      rw [h1, h2]
      simp

/-- Witness for `c8_amended`: a fresh snapshot makes a second call skip. -/
theorem c8_witness :
    refresh ⟨[], [], some 10⟩ false 20 .transportError = (⟨[], [], some 10⟩, false) :=
  c8_amended.1 ⟨[], [], some 10⟩ 10 20 .transportError rfl (by decide)

/-- C8, counterexample to the claim as stated: with no prior snapshot and a
sitemap endpoint answering HTTP 500, two `refresh(force=false)` calls one
minute apart both attempt a sitemap fetch: failed crawls are not counted as
refreshes, so the interval never starts. -/
theorem c8_counterexample :
    (refresh ⟨[], [], none⟩ false 0 (.response 500 .malformed)).2 = true ∧
      (refresh (refresh ⟨[], [], none⟩ false 0 (.response 500 .malformed)).1 false 60
          (.response 500 .malformed)).2 = true := by decide
  

/-- Inserting keeps the list a permutation of the element consed on. -/
lemma insertScored_perm (x : Nat × String) (l : List (Nat × String)) :
    (insertScored x l).Perm (x :: l) := by
  induction l with
  | nil => exact List.Perm.refl _
  | cons y ys ih =>
    unfold insertScored
    split
    · exact (ih.cons y).trans (List.Perm.swap x y ys)
    · exact List.Perm.refl _

/-- The stable sort permutes its input. -/
lemma sortScored_perm (l : List (Nat × String)) : (sortScored l).Perm l := by
  induction l with
  | nil => exact List.Perm.refl _
  | cons a l ih => exact (insertScored_perm a (sortScored l)).trans (ih.cons a)

/-- Inserting into a weakly descending list keeps it weakly descending. -/
lemma insertScored_sorted (x : Nat × String) (l : List (Nat × String))
    (h : l.Pairwise (fun a b => b.1 ≤ a.1)) :
    (insertScored x l).Pairwise (fun a b => b.1 ≤ a.1) := by
  induction l with
  | nil => simp [insertScored]
  | cons y ys ih =>
    rw [List.pairwise_cons] at h
    obtain ⟨hy, hys⟩ := h
    unfold insertScored
    split
    · rename_i hlt
      rw [List.pairwise_cons]
      refine ⟨?_, ih hys⟩
      intro z hz
      rcases List.mem_cons.mp ((insertScored_perm x ys).mem_iff.mp hz) with rfl | hz'
      · exact Nat.le_of_lt hlt
      · exact hy z hz'
    · rename_i hnlt
      rw [List.pairwise_cons]
      refine ⟨?_, List.pairwise_cons.mpr ⟨hy, hys⟩⟩
      intro z hz
      rcases List.mem_cons.mp hz with rfl | hz'
      · exact Nat.le_of_not_lt hnlt
      · exact Nat.le_trans (hy z hz') (Nat.le_of_not_lt hnlt)

/-- The stable sort produces a weakly descending list. -/
lemma sortScored_sorted (l : List (Nat × String)) :
    (sortScored l).Pairwise (fun a b => b.1 ≤ a.1) := by
  induction l with
  | nil => exact List.Pairwise.nil
  | cons a l ih => exact insertScored_sorted a (sortScored l) ih

/-- Every pair reaching the sort of `find_best_match` records the score of
its own URL, positively. -/
lemma mem_scored {q : String} {urls : List String} {p : Nat × String}
    (hp : p ∈ (urls.filterMap fun u =>
      let sc := scoreUrl (queryWords q) u
      if 0 < sc then some (sc, u) else none)) :
    p.2 ∈ urls ∧ p.1 = scoreUrl (queryWords q) p.2 ∧ 0 < p.1 := by
  obtain ⟨v, hv, hsome⟩ := List.mem_filterMap.mp hp
  by_cases hsc : 0 < scoreUrl (queryWords q) v
  · simp only [if_pos hsc] at hsome
    cases hsome
    exact ⟨hv, rfl, hsc⟩
  · rw [if_neg hsc] at hsome
    exact Option.noConfusion hsome

/-- URLs returned by `find_best_match` come from the allowlist and score
positively. -/
lemma mem_find_best_match {q : String} {urls : List String} {u : String}
    (h : u ∈ find_best_match q urls) :
    u ∈ urls ∧ 0 < scoreUrl (queryWords q) u := by
  unfold find_best_match at h
  obtain ⟨p, hp, rfl⟩ := List.mem_map.mp h
  have hp2 := (List.take_sublist 5 _).mem hp
  have hp3 := (sortScored_perm _).mem_iff.mp hp2
  obtain ⟨hmem, hsc, hpos⟩ := mem_scored hp3
  exact ⟨hmem, hsc ▸ hpos⟩

/-- Split a character list on `/`, keeping empty pieces, as Python
`str.split('/')` does. -/
def splitOnSlash : List Char → List (List Char)
  | [] => [[]]
  | c :: rest =>
    let r := splitOnSlash rest
    if c = '/' then [] :: r else (c :: r.headD []) :: r.tail

/-- Scoring as the claim words it: each query word longer than two
characters adds 1 when contained in the lower-cased path and 2 more when it
exactly equals a full path segment or the path's final segment.  This
definition follows the claim text, to be compared with `scoreUrl`, which
follows the source. -/
def specScoreUrl (words : List (List Char)) (url : String) : Nat :=
  let path := (urlPathL url.data).map Char.toLower
  let segs := splitOnSlash path
  words.foldl
    (fun s w =>
      if 2 < w.length then
        s + (if substrB w path then 1 else 0) +
          (if segs.contains w || (segs.getLastD [] == w) then 2 else 0)
      else s)
    0

/-- C4, counterexample to the claim as stated: on the query `gui` the code
grants the +2 bonus to `/guide` because `/gui` is a substring of the path,
though `gui` matches no full segment; the returned list puts `/guide` first
while its claimed score (1) is below that of `/x/gui` (3), so the output is
not in descending order of the claimed scoring. -/
theorem c4_counterexample :
    find_best_match "gui"
        ["https://docs.zocomputer.com/guide", "https://docs.zocomputer.com/x/gui"] =
      ["https://docs.zocomputer.com/guide", "https://docs.zocomputer.com/x/gui"] ∧
    specScoreUrl (queryWords "gui") "https://docs.zocomputer.com/guide" <
      specScoreUrl (queryWords "gui") "https://docs.zocomputer.com/x/gui" := by decide

/-- C4, amended.  `find_best_match` scores +1 for substring containment of a
query word in the path, +2 more when `/word` occurs in the path (the word is
a slash-anchored run, not necessarily a full segment) or the path merely
ends with the word; it returns at most five URLs, all from the allowlist
with positive score, in weakly descending order of that code score, stably. -/
theorem c4_amended (query : String) (validUrls : List String) :
    (find_best_match query validUrls).length ≤ 5 ∧
    (∀ u ∈ find_best_match query validUrls,
      u ∈ validUrls ∧ 0 < scoreUrl (queryWords query) u) ∧
    (find_best_match query validUrls).Pairwise
      (fun a b => scoreUrl (queryWords query) b ≤ scoreUrl (queryWords query) a) := by
  refine ⟨?_, fun u hu => mem_find_best_match hu, ?_⟩
  · simp only [find_best_match, List.length_map, List.length_take]
    exact Nat.min_le_left _ _
  · unfold find_best_match
    rw [List.pairwise_map]
    have hs := sortScored_sorted (validUrls.filterMap fun u =>
      let sc := scoreUrl (queryWords query) u
      if 0 < sc then some (sc, u) else none)
    have ht := List.Pairwise.sublist (List.take_sublist 5 _) hs
    refine ht.imp_of_mem ?_
    intro a b ha hb hab
    have ha2 := mem_scored ((sortScored_perm _).mem_iff.mp ((List.take_sublist 5 _).mem ha))
    have hb2 := mem_scored ((sortScored_perm _).mem_iff.mp ((List.take_sublist 5 _).mem hb))
    rw [← ha2.2.1, ← hb2.2.1]
    exact hab

/-- Witness for `c4_amended` at a concrete query and allowlist. -/
theorem c4_witness :
    "https://docs.zocomputer.com/guide" ∈ ["https://docs.zocomputer.com/guide"] ∧
      0 < scoreUrl (queryWords "guide") "https://docs.zocomputer.com/guide" := by
  have h : find_best_match "guide" ["https://docs.zocomputer.com/guide"] =
      ["https://docs.zocomputer.com/guide"] := by decide
  refine (c4_amended "guide" ["https://docs.zocomputer.com/guide"]).2.1 _ ?_
  rw [h]
  exact List.mem_singleton_self _

/-- C3, counterexample to the claim as stated: with an empty index and any
query, `retrieve_relevant_docs` fetches the introduction page over the
network at query time, and its result depends on the network oracle. -/
theorem c3_counterexample :
    retrieveFetchedUrls [] "how do I deploy a site" 3 ≠ [] ∧
      retrieve_relevant_docs [] "how do I deploy a site" 3
          (fun u => some ⟨u, "t", "c"⟩) = [⟨DOCS_INTRO_URL, "t", "c"⟩] ∧
      retrieve_relevant_docs [] "how do I deploy a site" 3 (fun _ => none) = [] := by
  refine ⟨by decide, by decide, by decide⟩

/-- C3, amended.  Query-time retrieval always fetches pages over the
network: with a positive page budget the fetched URL list is never empty,
and every fetched URL is a keyword-match candidate or the introduction
page.  Only candidate selection (`find_best_match`) is local and pure. -/
theorem c3_amended (validUrls : List String) (query : String) (maxPages : Nat) :
    (1 ≤ maxPages → retrieveFetchedUrls validUrls query maxPages ≠ []) ∧
    ∀ u ∈ retrieveFetchedUrls validUrls query maxPages,
      u ∈ find_best_match query validUrls ∨ u = DOCS_INTRO_URL := by
  constructor
  · intro hm
    simp only [retrieveFetchedUrls, retrieveCandidates]
    by_cases hc : find_best_match query validUrls = []
    · rw [if_pos hc]
      cases maxPages with
      | zero => exact absurd hm (by decide)
      | succ k => simp
    · rw [if_neg hc]
      cases hfb : find_best_match query validUrls with
      | nil => exact absurd hfb hc
      | cons a l =>
        cases maxPages with
        | zero => exact absurd hm (by decide)
        | succ k => simp [hfb]
  · intro u hu
    simp only [retrieveFetchedUrls, retrieveCandidates] at hu
    have hu2 := (List.take_sublist maxPages _).mem hu
    by_cases hc : find_best_match query validUrls = []
    · rw [if_pos hc] at hu2
      right
      simpa using hu2
    · rw [if_neg hc] at hu2
      exact Or.inl hu2

/-- Witness for `c3_amended` at a concrete query. -/
theorem c3_witness :
    retrieveFetchedUrls ["https://docs.zocomputer.com/pricing"] "pricing please" 3 ≠ [] :=
  (c3_amended ["https://docs.zocomputer.com/pricing"] "pricing please" 3).1 (by decide)

/-- When `validate_url` reports a URL, it is the basic normalization of its
input. -/
lemma validate_url_snd {net : String → ProbeOutcome} {url : String} {b : Bool}
    {n : String} (h : validate_url net url = (b, some n)) :
    n = basic_normalize url := by
  simp only [validate_url] at h
  split at h
  · injection h with h1 h2
    exact Option.noConfusion h2
  · split at h
    · injection h with h1 h2
      exact (Option.some.inj h2).symm
    · split at h
      · injection h with h1 h2
        exact Option.noConfusion h2
      · split at h
        · injection h with h1 h2
          exact (Option.some.inj h2).symm
        · injection h with h1 h2
          exact Option.noConfusion h2

/-- C2, counterexample to the claim as stated: with allowlist
`{…/pricing}`, the reply text holds the unknown docs URL `…/guide`; no
context keyword matches `/pricing`, so the rewriter falls back to the
introduction page, and the output contains the docs-origin URL `…/intro`,
which is not a member of the allowlist. -/
theorem c2_counterexample :
    extract_urls_from_text
        (validate_and_fix_urls "See https://docs.zocomputer.com/guide for info"
          ["https://docs.zocomputer.com/pricing"] (fun _ => .exn)) =
      ["https://docs.zocomputer.com/intro"] ∧
    urlnetloc "https://docs.zocomputer.com/intro" = "docs.zocomputer.com" ∧
    ("https://docs.zocomputer.com/intro" ∈ ["https://docs.zocomputer.com/pricing"] →
      False) :=
  ⟨by decide, by decide, by decide⟩

/-- C2, amended.  Every replacement target that `validate_and_fix_urls`
substitutes for a docs-origin URL is safe in the weaker sense: an allowlist
member, the configured introduction URL (which need not itself be
allowlisted), or the fragment/query/slash-stripped form of a URL accepted by
the allowlist check. -/
theorem c2_amended (text : String) (validUrls : List String)
    (net : String → ProbeOutcome) (old new : String)
    (h : (old, new) ∈ compute_replacements text validUrls net) :
    new ∈ validUrls ∨ new = DOCS_INTRO_URL ∨
      (is_valid_url validUrls old = true ∧ new = basic_normalize old) := by
  obtain ⟨url, hurl, hrep⟩ := List.mem_filterMap.mp h
  unfold replacementFor at hrep
  split at hrep
  · split at hrep
    · rename_i hnv
      injection hrep with hrep'
      injection hrep' with h1 h2
      cases hcands : find_best_match (contextAround text url) validUrls with
      | nil =>
        right; left
        rw [← h2, hcands]
        rfl
      | cons a l =>
        left
        rw [← h2, hcands]
        exact (mem_find_best_match (hcands ▸ List.mem_cons_self a l)).1
    · rename_i hv
      have hvalid : is_valid_url validUrls url = true := by
        cases hiv : is_valid_url validUrls url
        · rw [hiv] at hv
          exact absurd rfl hv
        · rfl
      split at hrep
      · cases hcands : find_best_match url validUrls with
        | nil =>
          injection hrep with hrep'
          injection hrep' with h1 h2
          right; left
          rw [← h2, hcands]
          rfl
        | cons a l =>
          injection hrep with hrep'
          injection hrep' with h1 h2
          left
          rw [← h2, hcands]
          exact (mem_find_best_match (hcands ▸ List.mem_cons_self a l)).1
      · rename_i nz heq
        split at hrep
        · injection hrep with hrep'
          injection hrep' with h1 h2
          right; right
          refine ⟨h1 ▸ hvalid, ?_⟩
          rw [← h2, validate_url_snd heq, h1]
        · exact Option.noConfusion hrep
      · exact Option.noConfusion hrep
  · exact Option.noConfusion hrep

/-- Witness for `c2_amended` at a concrete reply and allowlist. -/
theorem c2_witness :
    ("https://docs.zocomputer.com/guide", DOCS_INTRO_URL) ∈
        compute_replacements "See https://docs.zocomputer.com/guide for info"
          ["https://docs.zocomputer.com/pricing"] (fun _ => .exn) ∧
      (DOCS_INTRO_URL ∈ ["https://docs.zocomputer.com/pricing"] ∨
        DOCS_INTRO_URL = DOCS_INTRO_URL ∨
        (is_valid_url ["https://docs.zocomputer.com/pricing"]
            "https://docs.zocomputer.com/guide" = true ∧
          DOCS_INTRO_URL = basic_normalize "https://docs.zocomputer.com/guide")) :=
  ⟨by decide,
    c2_amended "See https://docs.zocomputer.com/guide for info"
      ["https://docs.zocomputer.com/pricing"] (fun _ => .exn)
      "https://docs.zocomputer.com/guide" DOCS_INTRO_URL (by decide)⟩

/-- A successful scheme read decomposes the input and names the scheme. -/
lemma tryProto_some {cs proto after : List Char}
    (h : tryProto cs = some (proto, after)) :
    cs = proto ++ after ∧ (proto = httpsChars ∨ proto = httpChars) := by
  unfold tryProto at h
  split at h
  · rename_i hps
    injection h with h1
    injection h1 with ha hb
    subst ha
    subst hb
    obtain ⟨t, ht⟩ := List.isPrefixOf_iff_prefix.mp hps
    refine ⟨?_, Or.inl rfl⟩
    subst ht
    have h8 : httpsChars.length = 8 := rfl
    rw [← h8, List.drop_left]
  · split at h
    · rename_i hps
      injection h with h1
      injection h1 with ha hb
      subst ha
      subst hb
      obtain ⟨t, ht⟩ := List.isPrefixOf_iff_prefix.mp hps
      refine ⟨?_, Or.inr rfl⟩
      subst ht
      have h7 : httpChars.length = 7 := rfl
      rw [← h7, List.drop_left]
    · exact Option.noConfusion h

/-- No scheme can be read unless the head is `h`. -/
lemma tryProto_none_head {cs : List Char} (h : cs.head? ≠ some 'h') :
    tryProto cs = none := by
  unfold tryProto
  rw [if_neg, if_neg]
  · intro hp
    obtain ⟨t, ht⟩ := List.isPrefixOf_iff_prefix.mp hp
    apply h
    rw [← ht]
    rfl
  · intro hp
    obtain ⟨t, ht⟩ := List.isPrefixOf_iff_prefix.mp hp
    apply h
    rw [← ht]
    rfl

/-- No scheme can be read unless the second character is `t`. -/
lemma tryProto_none_second {a b : Char} {X : List Char} (h : b ≠ 't') :
    tryProto (a :: b :: X) = none := by
  unfold tryProto
  rw [if_neg, if_neg]
  · intro hp
    obtain ⟨t, ht⟩ := List.isPrefixOf_iff_prefix.mp hp
    simp only [httpChars, List.cons_append] at ht
    injection ht with h1 ht2
    injection ht2 with h2 ht3
    exact h h2.symm
  · intro hp
    obtain ⟨t, ht⟩ := List.isPrefixOf_iff_prefix.mp hp
    simp only [httpsChars, List.cons_append] at ht
    injection ht with h1 ht2
    injection ht2 with h2 ht3
    exact h h2.symm

/-- Reading a scheme off a text that begins with it succeeds. -/
lemma tryProto_proto_append {proto : List Char}
    (h : proto = httpsChars ∨ proto = httpChars) (W : List Char) :
    tryProto (proto ++ W) = some (proto, W) := by
  rcases h with rfl | rfl
  · unfold tryProto
    rw [if_pos]
    · have h8 : httpsChars.length = 8 := rfl
      rw [← h8, List.drop_left]
    · exact List.isPrefixOf_iff_prefix.mpr (List.prefix_append _ _)
  · unfold tryProto
    rw [if_neg, if_pos]
    · have h7 : httpChars.length = 7 := rfl
      rw [← h7, List.drop_left]
    · exact List.isPrefixOf_iff_prefix.mpr (List.prefix_append _ _)
    · intro hp
      obtain ⟨t, ht⟩ := List.isPrefixOf_iff_prefix.mp hp
      have := congrArg (fun l => l.get? 4) ht
      simp [httpsChars, httpChars] at this

/-- A text starting with either scheme marker yields a successful read. -/
lemma tryProto_ne_none {cs : List Char}
    (h : httpsChars <+: cs ∨ httpChars <+: cs) : tryProto cs ≠ none := by
  unfold tryProto
  rcases h with h | h
  · rw [if_pos (List.isPrefixOf_iff_prefix.mpr h)]
    exact Option.noConfusion
  · by_cases hps : httpsChars.isPrefixOf cs
    · rw [if_pos hps]
      exact Option.noConfusion
    · rw [if_neg hps, if_pos (List.isPrefixOf_iff_prefix.mpr h)]
      exact Option.noConfusion

/-- A successful read means the text starts with a scheme marker. -/
lemma tryProto_starts {cs : List Char} (h : tryProto cs ≠ none) :
    httpsChars <+: cs ∨ httpChars <+: cs := by
  unfold tryProto at h
  by_cases hps : httpsChars.isPrefixOf cs
  · exact Or.inl (List.isPrefixOf_iff_prefix.mp hps)
  · rw [if_neg hps] at h
    by_cases hp : httpChars.isPrefixOf cs
    · exact Or.inr (List.isPrefixOf_iff_prefix.mp hp)
    · rw [if_neg hp] at h
      exact absurd rfl h

/-- Fuel does not matter once it covers the input length. -/
lemma scanF_irrel : ∀ (n m : Nat) (p : Bool) (cs : List Char),
    cs.length ≤ n → cs.length ≤ m → scanF n p cs = scanF m p cs := by
  intro n
  induction n with
  | zero =>
    intro m p cs hn hm
    have hnil : cs = [] := List.length_eq_zero.mp (Nat.le_zero.mp hn)
    subst hnil
    cases m <;> rfl
  | succ n ih =>
    intro m p cs hn hm
    cases cs with
    | nil => cases m <;> rfl
    | cons c rest =>
      cases m with
      | zero => simp at hm
      | succ m =>
        have hrest : rest.length ≤ n := Nat.le_of_succ_le_succ (by simpa using hn)
        have hrestm : rest.length ≤ m := Nat.le_of_succ_le_succ (by simpa using hm)
        simp only [scanF]
        by_cases hp : p
        · simp only [if_pos hp]
          rw [ih m (c == '<') rest hrest hrestm]
        · simp only [if_neg hp]
          cases htp : tryProto (c :: rest) with
          | none =>
            rw [ih m (c == '<') rest hrest hrestm]
          | some pa =>
            obtain ⟨proto, after⟩ := pa
            obtain ⟨hPS, hcase⟩ := tryProto_some htp
            have hp7 : 7 ≤ proto.length := by
              rcases hcase with rfl | rfl <;> decide
            have hlen1 : rest.length + 1 = proto.length + after.length := by
              have := congrArg List.length hPS
              simpa [Nat.add_comm] using this
            have hlen2 : after.length =
                (after.takeWhile isUrlChar).length + (after.dropWhile isUrlChar).length := by
              conv_lhs => rw [← List.takeWhile_append_dropWhile isUrlChar after]
              rw [List.length_append]
            by_cases hrun : after.takeWhile isUrlChar = []
            · simp only [if_pos hrun]
              rw [ih m (c == '<') rest hrest hrestm]
            · simp only [if_neg hrun]
              have hrun1 : 1 ≤ (after.takeWhile isUrlChar).length := by
                have := List.length_pos.mpr hrun
                omega
              by_cases htl : (after.dropWhile isUrlChar).head? = some '>'
              · simp only [if_pos htl]
                by_cases h2 : 2 ≤ (after.takeWhile isUrlChar).length
                · simp only [if_pos h2]
                  rw [ih m false ((after.takeWhile isUrlChar).getLastD 'x' ::
                    after.dropWhile isUrlChar) (by simp; omega) (by simp; omega)]
                · simp only [if_neg h2]
                  rw [ih m (c == '<') rest hrest hrestm]
              · simp only [if_neg htl]
                rw [ih m false (after.dropWhile isUrlChar) (by omega) (by omega)]

/-- Unfolding: the lookbehind blocks a match, the character is copied. -/
lemma scan_blocked (c : Char) (rest : List Char) :
    scan true (c :: rest) = c :: scan (c == '<') rest := rfl

/-- Unfolding: no scheme at this position, the character is copied. -/
lemma scan_copy_noproto {c : Char} {rest : List Char}
    (htp : tryProto (c :: rest) = none) :
    scan false (c :: rest) = c :: scan (c == '<') rest := by
  unfold scan
  simp only [List.length_cons, scanF, htp]
  rfl

/-- Unfolding: a scheme with an empty URL run does not match, the character
is copied. -/
lemma scan_copy_runnil {c : Char} {rest proto after : List Char}
    (htp : tryProto (c :: rest) = some (proto, after))
    (hrun : after.takeWhile isUrlChar = []) :
    scan false (c :: rest) = c :: scan (c == '<') rest := by
  unfold scan
  simp only [List.length_cons, scanF, htp, hrun, if_pos]
  rfl

/-- Unfolding: a one-character run followed by `>` cannot give back a
character, the position does not match. -/
lemma scan_copy_run1 {c : Char} {rest proto after : List Char}
    (htp : tryProto (c :: rest) = some (proto, after))
    (hrun : after.takeWhile isUrlChar ≠ [])
    (hlen : ¬ 2 ≤ (after.takeWhile isUrlChar).length)
    (htl : (after.dropWhile isUrlChar).head? = some '>') :
    scan false (c :: rest) = c :: scan (c == '<') rest := by
  unfold scan
  simp only [List.length_cons, scanF, htp]
  rw [if_neg hrun, if_pos htl, if_neg hlen]
  rfl

/-- Unfolding: a full greedy match (lookahead passes) is wrapped. -/
lemma scan_match_full {c : Char} {rest proto after : List Char}
    (htp : tryProto (c :: rest) = some (proto, after))
    (hrun : after.takeWhile isUrlChar ≠ [])
    (htl : (after.dropWhile isUrlChar).head? ≠ some '>') :
    scan false (c :: rest) =
      '<' :: (proto ++ after.takeWhile isUrlChar) ++ '>' ::
        scan false (after.dropWhile isUrlChar) := by
  obtain ⟨hPS, hcase⟩ := tryProto_some htp
  have hp7 : 7 ≤ proto.length := by rcases hcase with rfl | rfl <;> decide
  have hlen1 : rest.length + 1 = proto.length + after.length := by
    have := congrArg List.length hPS
    simpa [Nat.add_comm] using this
  have htlle : (after.dropWhile isUrlChar).length ≤ after.length :=
    (List.dropWhile_sublist _).length_le
  unfold scan
  simp only [List.length_cons, scanF, htp]
  rw [if_neg hrun, if_neg htl,
    scanF_irrel rest.length (after.dropWhile isUrlChar).length false _ (by omega)
      (Nat.le_refl _)]
  rfl

/-- Unfolding: a match whose lookahead fails gives back one character and
wraps the rest. -/
lemma scan_match_back {c : Char} {rest proto after : List Char}
    (htp : tryProto (c :: rest) = some (proto, after))
    (h2 : 2 ≤ (after.takeWhile isUrlChar).length)
    (htl : (after.dropWhile isUrlChar).head? = some '>') :
    scan false (c :: rest) =
      '<' :: (proto ++ (after.takeWhile isUrlChar).dropLast) ++ '>' ::
        scan false ((after.takeWhile isUrlChar).getLastD 'x' ::
          after.dropWhile isUrlChar) := by
  obtain ⟨hPS, hcase⟩ := tryProto_some htp
  have hp7 : 7 ≤ proto.length := by rcases hcase with rfl | rfl <;> decide
  have hlen1 : rest.length + 1 = proto.length + after.length := by
    have := congrArg List.length hPS
    simpa [Nat.add_comm] using this
  have hlen2 : after.length =
      (after.takeWhile isUrlChar).length + (after.dropWhile isUrlChar).length := by
    conv_lhs => rw [← List.takeWhile_append_dropWhile isUrlChar after]
    rw [List.length_append]
  have hrun : after.takeWhile isUrlChar ≠ [] := by
    intro hnil
    rw [hnil] at h2
    exact absurd h2 (by decide)
  unfold scan
  simp only [List.length_cons, scanF, htp]
  rw [if_neg hrun, if_pos htl, if_pos h2,
    scanF_irrel rest.length ((after.takeWhile isUrlChar).getLastD 'x' ::
      after.dropWhile isUrlChar).length false _ (by simp; omega) (Nat.le_refl _)]
  rfl

/-- Whether the character before the rest of the text, if any, is `<`. -/
def lastLt (p : Bool) (xs : List Char) : Bool :=
  match xs.getLast? with
  | none => p
  | some c => c == '<'

/-- Unfolding for `lastLt` over a cons. -/
lemma lastLt_cons (p : Bool) (x : Char) (xs : List Char) :
    lastLt p (x :: xs) = lastLt (x == '<') xs := by
  cases xs with
  | nil => rfl
  | cons y ys =>
    unfold lastLt
    rw [List.getLast?_cons_cons]
    cases hg : (y :: ys).getLast? with
    | none => simp at hg
    | some d => rfl

/-- Every step of the scanner either copies the head character or emits an
opening angle bracket. -/
lemma scan_shape (p : Bool) (c : Char) (rest : List Char) :
    scan p (c :: rest) = c :: scan (c == '<') rest ∨
      (scan p (c :: rest)).head? = some '<' := by
  cases p
  · cases htp : tryProto (c :: rest) with
    | none => exact Or.inl (scan_copy_noproto htp)
    | some pa =>
      obtain ⟨proto, after⟩ := pa
      by_cases hrun : after.takeWhile isUrlChar = []
      · exact Or.inl (scan_copy_runnil htp hrun)
      · by_cases htl : (after.dropWhile isUrlChar).head? = some '>'
        · by_cases h2 : 2 ≤ (after.takeWhile isUrlChar).length
          · right
            rw [scan_match_back htp h2 htl]
            rfl
          · exact Or.inl (scan_copy_run1 htp hrun h2 htl)
        · right
          rw [scan_match_full htp hrun htl]
          rfl
  · exact Or.inl (scan_blocked c rest)

/-- Scanning copies verbatim through a region where no position can read a
scheme, and continues behind it with the lookbehind of the region's last
character. -/
lemma scan_append_inert : ∀ (xs ys : List Char) (p : Bool),
    (∀ i, i < xs.length → tryProto (xs.drop i ++ ys) = none) →
    scan p (xs ++ ys) = xs ++ scan (lastLt p xs) ys := by
  intro xs
  induction xs with
  | nil =>
    intro ys p h
    simp [lastLt]
  | cons x xs' ih =>
    intro ys p h
    have h0 : tryProto (x :: (xs' ++ ys)) = none := by
      have := h 0 (by simp)
      simpa using this
    have hcopy : scan p ((x :: xs') ++ ys) = x :: scan (x == '<') (xs' ++ ys) := by
      cases p
      · exact scan_copy_noproto h0
      · exact scan_blocked x (xs' ++ ys)
    rw [hcopy, ih ys (x == '<') ?_, lastLt_cons]
    · rfl
    · intro i hi
      have := h (i + 1) (by simpa using Nat.succ_lt_succ hi)
      simpa using this

/-- A pattern without `<` that starts the scanner's output also starts the
scanner's input: the scanner only ever inserts angle brackets. -/
lemma prefix_scan {pat : List Char} : ∀ (p : Bool) (cs : List Char),
    '<' ∉ pat → pat <+: scan p cs → pat <+: cs := by
  induction pat with
  | nil =>
    intro p cs h hp
    exact List.nil_prefix
  | cons a pat' ih =>
    intro p cs hmem hpre
    cases cs with
    | nil =>
      have hnil : scan p [] = [] := rfl
      rw [hnil, List.prefix_nil] at hpre
      exact absurd hpre (by simp)
    | cons c rest =>
      rcases scan_shape p c rest with hcopy | hhead
      · rw [hcopy] at hpre
        rw [List.cons_prefix_cons] at hpre
        obtain ⟨rfl, hpre'⟩ := hpre
        rw [List.cons_prefix_cons]
        exact ⟨rfl, ih _ _ (fun hm => hmem (List.mem_cons_of_mem _ hm)) hpre'⟩
      · exfalso
        obtain ⟨t, ht⟩ := hpre
        have hh : (scan p (c :: rest)).head? = some a := by
          rw [← ht]
          rfl
        rw [hhead] at hh
        have : a = '<' := (Option.some.inj hh).symm
        exact hmem (this ▸ List.mem_cons_self a pat')

/-- Absence of nested scheme starts: no occurrence of `http` immediately
preceded by a URL character.  Texts whose URLs do not embed another URL
satisfy this check. -/
def goodB : List Char → Bool
  | [] => true
  | c :: rest => (!(isUrlChar c && httpPat.isPrefixOf rest)) && goodB rest

/-- The check passes on every tail of a passing list. -/
lemma goodB_tail {c : Char} {rest : List Char} (h : goodB (c :: rest) = true) :
    goodB rest = true := by
  simp only [goodB, Bool.and_eq_true] at h
  exact h.2

/-- The check passes on every suffix of a passing list. -/
lemma goodB_drop {cs : List Char} (h : goodB cs = true) :
    ∀ i, goodB (cs.drop i) = true := by
  induction cs with
  | nil =>
    intro i
    rw [List.drop_nil]
    exact h
  | cons c rest ih =>
    intro i
    cases i with
    | zero => exact h
    | succ j => exact ih (goodB_tail h) j

/-- In a passing list, `http` never starts right after a URL character. -/
lemma goodB_append_no_http : ∀ (a b : List Char) (z : Char),
    goodB (a ++ b) = true → a.getLast? = some z → isUrlChar z = true →
    ¬ (httpPat <+: b) := by
  intro a
  induction a with
  | nil =>
    intro b z h hz
    exact absurd hz (by simp)
  | cons x a' ih =>
    intro b z h hz hurl hpre
    cases a' with
    | nil =>
      have hzx : z = x := by
        simpa using hz.symm
      subst hzx
      have h1 : goodB (z :: b) = true := h
      simp only [goodB, Bool.and_eq_true, Bool.not_eq_true', Bool.and_eq_false_iff] at h1
      rcases h1.1 with hbad | hbad
      · rw [hurl] at hbad
        exact Bool.noConfusion hbad
      · rw [List.isPrefixOf_iff_prefix.mpr hpre] at hbad
        exact Bool.noConfusion hbad
    | cons y a'' =>
      have hz' : (y :: a'').getLast? = some z := by
        rw [← List.getLast?_cons_cons]
        exact hz
      exact ih b z (goodB_tail h) hz' hurl hpre

/-- In a passing list decomposed as scheme plus remainder, `http` never
occurs inside the greedy URL run. -/
lemma goodB_run_no_http {proto after : List Char}
    (hg : goodB (proto ++ after) = true)
    (hcase : proto = httpsChars ∨ proto = httpChars) :
    ∀ j, j < (after.takeWhile isUrlChar).length →
      ¬ (httpPat <+: (after.takeWhile isUrlChar).drop j) := by
  intro j hj hpre
  have hsplit : after = after.takeWhile isUrlChar ++ after.dropWhile isUrlChar :=
    (List.takeWhile_append_dropWhile isUrlChar after).symm
  have hab : proto ++ after =
      (proto ++ (after.takeWhile isUrlChar).take j) ++
        ((after.takeWhile isUrlChar).drop j ++ after.dropWhile isUrlChar) := by
    conv_lhs => rw [hsplit]
    rw [List.append_assoc, ← List.append_assoc ((after.takeWhile isUrlChar).take j),
      List.take_append_drop]
  rw [hab] at hg
  have hext : httpPat <+:
      (after.takeWhile isUrlChar).drop j ++ after.dropWhile isUrlChar :=
    hpre.trans (List.prefix_append _ _)
  by_cases hj0 : j = 0
  · subst hj0
    apply goodB_append_no_http _ _ '/' hg ?_ (by decide) hext
    rw [List.take_zero, List.append_nil]
    rcases hcase with rfl | rfl <;> decide
  · have hne : (after.takeWhile isUrlChar).take j ≠ [] := by
      intro hnil
      have := congrArg List.length hnil
      rw [List.length_take] at this
      simp only [List.length_nil] at this
      omega
    cases hgl : ((after.takeWhile isUrlChar).take j).getLast? with
    | none => exact hne (List.getLast?_eq_none_iff.mp hgl)
    | some g =>
      apply goodB_append_no_http _ _ g hg ?_ ?_ hext
      · rw [List.getLast?_append, hgl]
        rfl
      · have hgm : g ∈ (after.takeWhile isUrlChar).take j :=
          List.mem_of_mem_getLast? hgl
        exact List.mem_takeWhile_imp ((List.take_sublist _ _).mem hgm)

/-- No scheme can be read from any position inside a URL run followed by a
closing angle bracket, whatever comes after: `http` does not occur in the
run, and the bracket interrupts any straddling occurrence. -/
lemma no_tryProto_in_run {run X : List Char}
    (hnh : ∀ j, j < run.length → ¬ (httpPat <+: run.drop j)) :
    ∀ j, j < run.length → tryProto (run.drop j ++ '>' :: X) = none := by
  intro j hj
  cases htp : tryProto (run.drop j ++ '>' :: X) with
  | none => rfl
  | some pa =>
    exfalso
    have hne : tryProto (run.drop j ++ '>' :: X) ≠ none := by
      rw [htp]
      exact Option.noConfusion
    have hhttp : httpPat <+: run.drop j ++ '>' :: X := by
      rcases tryProto_starts hne with h | h
      · exact (show httpPat <+: httpsChars by decide).trans h
      · exact (show httpPat <+: httpChars by decide).trans h
    have hdne : 0 < (run.drop j).length := by
      rw [List.length_drop]
      omega
    by_cases h4 : 4 ≤ (run.drop j).length
    · apply hnh j hj
      have h1 : httpPat = (run.drop j ++ '>' :: X).take 4 :=
        List.prefix_iff_eq_take.mp hhttp
      rw [List.take_append_eq_append_take, show 4 - (run.drop j).length = 0 by omega,
        List.take_zero, List.append_nil] at h1
      exact h1 ▸ List.take_prefix 4 (run.drop j)
    · have h1 : httpPat = run.drop j ++ ('>' :: X).take (4 - (run.drop j).length) := by
        have h2 : httpPat = (run.drop j ++ '>' :: X).take 4 :=
          List.prefix_iff_eq_take.mp hhttp
        rw [List.take_append_eq_append_take,
          List.take_of_length_le (by omega : (run.drop j).length ≤ 4)] at h2
        exact h2
      have h14 : 1 ≤ 4 - (run.drop j).length := by omega
      rcases hd : run.drop j with _ | ⟨a, _ | ⟨b, _ | ⟨c', _ | e⟩⟩⟩ <;> rw [hd] at h1
      · rw [hd] at hdne
        simp at hdne
      · simp [httpPat] at h1
      · simp [httpPat] at h1
      · simp [httpPat] at h1
      · rw [hd] at h4
        simp at h4

/-- No scheme can be read starting anywhere inside the wrapped region made of
the scheme tail, a clean URL run and the closing bracket, whatever text
follows. -/
lemma match_region_inert {proto run : List Char} (ys : List Char)
    (hcase : proto = httpsChars ∨ proto = httpChars)
    (hnh : ∀ j, j < run.length → ¬ (httpPat <+: run.drop j)) :
    ∀ i, i < (proto.drop 1 ++ (run ++ ['>'])).length →
      tryProto ((proto.drop 1 ++ (run ++ ['>'])).drop i ++ ys) = none := by
  intro i hi
  by_cases hi1 : i < (proto.drop 1).length
  · apply tryProto_none_head
    rw [List.drop_append_eq_append_drop, show i - (proto.drop 1).length = 0 by omega,
      List.drop_zero]
    rcases hcase with rfl | rfl
    · have hb : i < 7 := by simpa [httpsChars] using hi1
      interval_cases i <;> simp [httpsChars]
    · have hb : i < 6 := by simpa [httpChars] using hi1
      interval_cases i <;> simp [httpChars]
  · have hi2 : (proto.drop 1).length ≤ i := Nat.le_of_not_lt hi1
    obtain ⟨j, rfl⟩ : ∃ j, i = (proto.drop 1).length + j :=
      ⟨i - (proto.drop 1).length, by omega⟩
    rw [List.drop_append]
    by_cases hj : j < run.length
    · rw [List.drop_append_eq_append_drop, show j - run.length = 0 by omega,
        List.drop_zero]
      have := no_tryProto_in_run hnh j hj (X := ys)
      simpa [List.append_assoc] using this
    · have hjeq : j = run.length := by
        rw [List.length_append, List.length_append] at hi
        simp only [List.length_cons, List.length_nil] at hi
        omega
      subst hjeq
      rw [List.drop_left]
      apply tryProto_none_head
      simp

/-- Copying a character at which no scheme can be read keeps the position
schemeless in the scanner's output: the scanner only inserts angle
brackets, which cannot complete a scheme marker. -/
lemma tryProto_cons_scan {c : Char} {rest : List Char} (q : Bool)
    (h : tryProto (c :: rest) = none) : tryProto (c :: scan q rest) = none := by
  by_cases hc : c = 'h'
  · subst hc
    cases htp2 : tryProto ('h' :: scan q rest) with
    | none => rfl
    | some pa =>
      exfalso
      have hne : tryProto ('h' :: scan q rest) ≠ none := by
        rw [htp2]
        exact Option.noConfusion
      rcases tryProto_starts hne with hpre | hpre
      · have h1 : httpsChars.drop 1 <+: scan q rest := by
          obtain ⟨t, ht⟩ := hpre
          simp only [httpsChars, List.cons_append] at ht
          injection ht with h1 h2
          exact ⟨t, by simpa [httpsChars] using h2⟩
        have h2 := prefix_scan q rest (by decide) h1
        have h3 : httpsChars <+: 'h' :: rest := by
          obtain ⟨t, ht⟩ := h2
          exact ⟨t, by simp [httpsChars, ← ht]⟩
        exact tryProto_ne_none (Or.inl h3) h
      · have h1 : httpChars.drop 1 <+: scan q rest := by
          obtain ⟨t, ht⟩ := hpre
          simp only [httpChars, List.cons_append] at ht
          injection ht with h1 h2
          exact ⟨t, by simpa [httpChars] using h2⟩
        have h2 := prefix_scan q rest (by decide) h1
        have h3 : httpChars <+: 'h' :: rest := by
          obtain ⟨t, ht⟩ := h2
          exact ⟨t, by simp [httpChars, ← ht]⟩
        exact tryProto_ne_none (Or.inr h3) h
  · apply tryProto_none_head
    simp only [List.head?_cons]
    intro hcc
    exact hc (Option.some.inj hcc)

/-- Rescanning a wrapped match whose run holds no nested scheme copies it
verbatim: the opening bracket is copied, the scheme head is blocked by the
lookbehind, and the rest of the region is inert. -/
lemma scan_wrapped_block {proto run : List Char} (Z : List Char)
    (hcase : proto = httpsChars ∨ proto = httpChars)
    (hnh : ∀ j, j < run.length → ¬ (httpPat <+: run.drop j)) :
    scan false ('<' :: (proto ++ run) ++ '>' :: Z) =
      '<' :: (proto ++ run) ++ '>' :: scan false Z := by
  simp only [List.cons_append]
  have h0 : tryProto ('<' :: ((proto ++ run) ++ '>' :: Z)) = none := by
    apply tryProto_none_head
    simp
  have e1 : scan false ('<' :: ((proto ++ run) ++ '>' :: Z)) =
      '<' :: scan true ((proto ++ run) ++ '>' :: Z) := by
    rw [scan_copy_noproto h0]
    rfl
  have hsplit : (proto ++ run) ++ '>' :: Z =
      'h' :: ((proto.drop 1 ++ (run ++ ['>'])) ++ Z) := by
    rcases hcase with rfl | rfl <;> simp [httpsChars, httpChars, List.append_assoc]
  have e2 : scan true ((proto ++ run) ++ '>' :: Z) =
      'h' :: scan false ((proto.drop 1 ++ (run ++ ['>'])) ++ Z) := by
    rw [hsplit, scan_blocked]
    rfl
  have e3 : scan false ((proto.drop 1 ++ (run ++ ['>'])) ++ Z) =
      (proto.drop 1 ++ (run ++ ['>'])) ++
        scan (lastLt false (proto.drop 1 ++ (run ++ ['>']))) Z :=
    scan_append_inert _ Z false (match_region_inert Z hcase hnh)
  have e4 : lastLt false (proto.drop 1 ++ (run ++ ['>'])) = false := by
    unfold lastLt
    rw [show proto.drop 1 ++ (run ++ ['>']) = (proto.drop 1 ++ run) ++ ['>'] by
      rw [List.append_assoc], List.getLast?_concat]
    decide
  rw [e1, e2, e3, e4]
  rcases hcase with rfl | rfl <;> simp [httpsChars, httpChars, List.append_assoc]

/-- Scanning is idempotent on texts where no `http` occurrence follows a URL
character, by strong induction on the length. -/
lemma scan_idem_aux : ∀ (n : Nat) (cs : List Char) (p : Bool), cs.length ≤ n →
    goodB cs = true → scan p (scan p cs) = scan p cs := by
  intro n
  induction n with
  | zero =>
    intro cs p hn hg
    have hnil : cs = [] := List.length_eq_zero.mp (Nat.le_zero.mp hn)
    subst hnil
    rfl
  | succ n ih =>
    intro cs p hn hg
    cases cs with
    | nil => rfl
    | cons c rest =>
      have hrest : rest.length ≤ n := Nat.le_of_succ_le_succ (by simpa using hn)
      cases p with
      | true =>
        rw [scan_blocked c rest, scan_blocked c (scan (c == '<') rest),
          ih rest (c == '<') hrest (goodB_tail hg)]
      | false =>
        cases htp : tryProto (c :: rest) with
        | none =>
          rw [scan_copy_noproto htp,
            scan_copy_noproto (tryProto_cons_scan (c == '<') htp),
            ih rest (c == '<') hrest (goodB_tail hg)]
        | some pa =>
          obtain ⟨proto, after⟩ := pa
          obtain ⟨hPS, hcase⟩ := tryProto_some htp
          have hc : c = 'h' ∧ rest = proto.drop 1 ++ after := by
            rcases hcase with rfl | rfl <;>
            · simp only [httpsChars, httpChars, List.cons_append] at hPS
              injection hPS with h1 h2
              exact ⟨h1, h2⟩
          have hcl : (c == '<') = false := by
            rw [hc.1]
            decide
          have hp7 : 7 ≤ proto.length := by
            rcases hcase with rfl | rfl <;> decide
          have hL1 : rest.length + 1 = proto.length + after.length := by
            have := congrArg List.length hPS
            simpa [Nat.add_comm] using this
          have hL2 : after.length =
              (after.takeWhile isUrlChar).length + (after.dropWhile isUrlChar).length := by
            conv_lhs => rw [← List.takeWhile_append_dropWhile isUrlChar after]
            rw [List.length_append]
          have hg' : goodB (proto ++ after) = true := by
            rw [← hPS]
            exact hg
          have hgAfter : goodB after = true := by
            have := goodB_drop hg' proto.length
            rwa [List.drop_left] at this
          have hgTl : goodB (after.dropWhile isUrlChar) = true := by
            have h2 := goodB_drop hgAfter (after.takeWhile isUrlChar).length
            have hdropeq : after.drop (after.takeWhile isUrlChar).length =
                after.dropWhile isUrlChar := by
              have h3 := List.drop_left (after.takeWhile isUrlChar)
                (after.dropWhile isUrlChar)
              rwa [List.takeWhile_append_dropWhile] at h3
            rwa [hdropeq] at h2
          by_cases hrun : after.takeWhile isUrlChar = []
          · rw [scan_copy_runnil htp hrun, hcl]
            have hinert : ∀ i, i < (proto.drop 1).length →
                tryProto ((proto.drop 1).drop i ++ after) = none := by
              intro i hi
              apply tryProto_none_head
              rcases hcase with rfl | rfl
              · have hb : i < 7 := by simpa [httpsChars] using hi
                interval_cases i <;> simp [httpsChars]
              · have hb : i < 6 := by simpa [httpChars] using hi
                interval_cases i <;> simp [httpChars]
            have hO : scan false rest =
                proto.drop 1 ++ scan (lastLt false (proto.drop 1)) after := by
              rw [hc.2]
              exact scan_append_inert (proto.drop 1) after false hinert
            have hlast : lastLt false (proto.drop 1) = false := by
              rcases hcase with rfl | rfl <;> decide
            rw [hlast] at hO
            have htp2 : tryProto (c :: scan false rest) =
                some (proto, scan false after) := by
              rw [hO, hc.1]
              rw [show ('h' : Char) :: (proto.drop 1 ++ scan false after) =
                proto ++ scan false after by rcases hcase with rfl | rfl <;> rfl]
              exact tryProto_proto_append hcase _
            have hrun2 : (scan false after).takeWhile isUrlChar = [] := by
              cases hafter : after with
              | nil => rfl
              | cons a0 as =>
                have ha0 : isUrlChar a0 = false := by
                  cases hb : isUrlChar a0 with
                  | false => rfl
                  | true =>
                    rw [hafter] at hrun
                    simp [List.takeWhile_cons, hb] at hrun
                rcases scan_shape false a0 as with hcopy | hhead
                · rw [hcopy]
                  simp [List.takeWhile_cons, ha0]
                · cases hsc : scan false (a0 :: as) with
                  | nil => rfl
                  | cons b bs =>
                    rw [hsc] at hhead
                    have hb : b = '<' := by simpa using hhead
                    subst hb
                    simp [List.takeWhile_cons, (by decide : isUrlChar '<' = false)]
            rw [scan_copy_runnil htp2 hrun2, hcl,
              ih rest false hrest (goodB_tail hg)]
          · by_cases htl : (after.dropWhile isUrlChar).head? = some '>'
            · by_cases h2 : 2 ≤ (after.takeWhile isUrlChar).length
              · -- give-back match
                rw [scan_match_back htp h2 htl]
                have hrun_ne : after.takeWhile isUrlChar ≠ [] := hrun
                obtain ⟨run', g, hrg⟩ :
                    ∃ run' g, after.takeWhile isUrlChar = run' ++ [g] :=
                  ⟨_, _, (List.dropLast_append_getLast hrun_ne).symm⟩
                have hdrop : (after.takeWhile isUrlChar).dropLast = run' := by
                  rw [hrg, List.dropLast_concat]
                have hgl : (after.takeWhile isUrlChar).getLastD 'x' = g := by
                  rw [hrg, List.getLastD_concat]
                rw [hdrop, hgl]
                have hnh := goodB_run_no_http hg' hcase
                have hlrg : (after.takeWhile isUrlChar).length = run'.length + 1 := by
                  rw [hrg, List.length_append, List.length_cons, List.length_nil]
                have hnh' : ∀ j, j < run'.length → ¬ (httpPat <+: run'.drop j) := by
                  intro j hj hpre
                  apply hnh j (by omega)
                  rw [hrg, List.drop_append_eq_append_drop,
                    show j - run'.length = 0 by omega, List.drop_zero]
                  exact hpre.trans (List.prefix_append _ _)
                rw [scan_wrapped_block _ hcase hnh']
                have hgGTl : goodB (g :: after.dropWhile isUrlChar) = true := by
                  have hsplit2 : after = run' ++ (g :: after.dropWhile isUrlChar) := by
                    conv_lhs => rw [← List.takeWhile_append_dropWhile isUrlChar after]
                    rw [hrg, List.append_assoc]
                    rfl
                  have h3 := goodB_drop hgAfter run'.length
                  rw [hsplit2, List.drop_left] at h3
                  exact h3
                rw [ih (g :: after.dropWhile isUrlChar) false (by simp; omega) hgGTl]
              · -- one-character run blocked by the lookahead
                rw [scan_copy_run1 htp hrun h2 htl, hcl]
                have hlen1 : (after.takeWhile isUrlChar).length = 1 := by
                  have := List.length_pos.mpr hrun
                  omega
                obtain ⟨r, hr⟩ : ∃ r, after.takeWhile isUrlChar = [r] := by
                  cases hx : after.takeWhile isUrlChar with
                  | nil => exact absurd hx hrun
                  | cons a as =>
                    cases as with
                    | nil => exact ⟨a, rfl⟩
                    | cons b bs =>
                      rw [hx] at hlen1
                      simp at hlen1
                obtain ⟨t2, ht2⟩ : ∃ t2, after.dropWhile isUrlChar = '>' :: t2 := by
                  cases hx : after.dropWhile isUrlChar with
                  | nil =>
                    rw [hx] at htl
                    exact absurd htl (by simp)
                  | cons b bs =>
                    rw [hx] at htl
                    have hbgt : b = '>' := by simpa using htl
                    exact ⟨bs, by rw [hbgt]⟩
                have hafter : after = r :: '>' :: t2 := by
                  conv_lhs => rw [← List.takeWhile_append_dropWhile isUrlChar after]
                  rw [hr, ht2]
                  rfl
                have hrurl : isUrlChar r = true := by
                  apply List.mem_takeWhile_imp (l := after)
                  rw [hr]
                  exact List.mem_singleton_self r
                have hinert : ∀ i, i < (proto.drop 1 ++ [r, '>']).length →
                    tryProto ((proto.drop 1 ++ [r, '>']).drop i ++ t2) = none := by
                  intro i hi
                  by_cases hi1 : i < (proto.drop 1).length
                  · apply tryProto_none_head
                    rw [List.drop_append_eq_append_drop,
                      show i - (proto.drop 1).length = 0 by omega, List.drop_zero]
                    rcases hcase with rfl | rfl
                    · have hb : i < 7 := by simpa [httpsChars] using hi1
                      interval_cases i <;> simp [httpsChars]
                    · have hb : i < 6 := by simpa [httpChars] using hi1
                      interval_cases i <;> simp [httpChars]
                  · have hcases : i = (proto.drop 1).length ∨
                        i = (proto.drop 1).length + 1 := by
                      rw [List.length_append] at hi
                      simp only [List.length_cons, List.length_nil] at hi
                      omega
                    rcases hcases with rfl | rfl
                    · rw [List.drop_left]
                      exact tryProto_none_second (by decide)
                    · rw [List.drop_append]
                      apply tryProto_none_head
                      simp
                have hO : scan false rest = (proto.drop 1 ++ [r, '>']) ++
                    scan (lastLt false (proto.drop 1 ++ [r, '>'])) t2 := by
                  rw [hc.2, hafter,
                    show proto.drop 1 ++ (r :: '>' :: t2) =
                      (proto.drop 1 ++ [r, '>']) ++ t2 by simp]
                  exact scan_append_inert _ t2 false hinert
                have hlast2 : lastLt false (proto.drop 1 ++ [r, '>']) = false := by
                  unfold lastLt
                  rw [show proto.drop 1 ++ [r, '>'] = (proto.drop 1 ++ [r]) ++ ['>'] by
                    simp, List.getLast?_concat]
                  decide
                rw [hlast2] at hO
                have htp2 : tryProto (c :: scan false rest) =
                    some (proto, r :: '>' :: scan false t2) := by
                  rw [hO, hc.1]
                  rw [show ('h' : Char) :: ((proto.drop 1 ++ [r, '>']) ++ scan false t2) =
                    proto ++ (r :: '>' :: scan false t2) by
                      rcases hcase with rfl | rfl <;> simp [httpsChars, httpChars]]
                  exact tryProto_proto_append hcase _
                have hrun2 : (r :: '>' :: scan false t2).takeWhile isUrlChar = [r] := by
                  simp [List.takeWhile_cons, hrurl, (by decide : isUrlChar '>' = false)]
                have hdrop2 : (r :: '>' :: scan false t2).dropWhile isUrlChar =
                    '>' :: scan false t2 := by
                  simp [List.dropWhile_cons, hrurl, (by decide : isUrlChar '>' = false)]
                rw [scan_copy_run1 htp2 (by rw [hrun2]; simp)
                  (by rw [hrun2]; simp) (by rw [hdrop2]; rfl), hcl,
                  ih rest false hrest (goodB_tail hg)]
            · -- full match
              rw [scan_match_full htp hrun htl]
              have hnh := goodB_run_no_http hg' hcase
              rw [scan_wrapped_block _ hcase hnh,
                ih (after.dropWhile isUrlChar) false (by omega) hgTl]

/-- Greedy run over a wholly satisfying block continues behind it. -/
lemma takeWhile_append_all {p : Char → Bool} {l1 : List Char}
    (h : ∀ c ∈ l1, p c = true) (l2 : List Char) :
    (l1 ++ l2).takeWhile p = l1 ++ l2.takeWhile p := by
  induction l1 with
  | nil => simp
  | cons x xs ih =>
    rw [List.cons_append, List.takeWhile_cons, if_pos (h x (List.mem_cons_self _ _)),
      ih fun c hc => h c (List.mem_cons_of_mem _ hc)]
    rfl

/-- Dropping over a wholly satisfying block continues behind it. -/
lemma dropWhile_append_all {p : Char → Bool} {l1 : List Char}
    (h : ∀ c ∈ l1, p c = true) (l2 : List Char) :
    (l1 ++ l2).dropWhile p = l2.dropWhile p := by
  induction l1 with
  | nil => simp
  | cons x xs ih =>
    rw [List.cons_append, List.dropWhile_cons, if_pos (h x (List.mem_cons_self _ _)),
      ih fun c hc => h c (List.mem_cons_of_mem _ hc)]

/-- C6, counterexample to the claim as stated: the URL inside the markdown
link `[docs](…)` is wrapped in angle brackets — the regex tests only for
surrounding angle brackets, not markdown context. -/
theorem c6_counterexample :
    wrap_urls_for_discord "[docs](https://docs.zocomputer.com/intro)" =
      "[docs](<https://docs.zocomputer.com/intro>)" := by decide

/-- C6, amended.  The wrapper brackets every URL whose occurrence is not
immediately preceded by `<` and not immediately followed by `>`: a URL that
is the target of a markdown link `[label](https://path)` IS wrapped, giving
`[label](<https://path>)` (first conjunct); an already angle-bracketed URL
`<https://path>` is left untouched (second conjunct).  `label` holds no `h`
and `path` is a clean URL run embedding no scheme. -/
theorem c6_amended (label path post : List Char)
    (hlab : 'h' ∉ label) (hpath : path ≠ [])
    (hurl : ∀ ch ∈ path, isUrlChar ch = true)
    (hnh : ∀ i, i < path.length → ¬ (httpPat <+: path.drop i)) :
    scan false (('[' :: label ++ [']', '(']) ++ (httpsChars ++ (path ++ ')' :: post))) =
      ('[' :: label ++ [']', '(']) ++
        ('<' :: (httpsChars ++ path) ++ '>' :: (')' :: scan false post)) ∧
    scan false ('<' :: (httpsChars ++ path) ++ '>' :: post) =
      '<' :: (httpsChars ++ path) ++ '>' :: scan false post := by
  constructor
  · have hAinert : ∀ i, i < ('[' :: label ++ [']', '(']).length →
        tryProto ((('[' :: label ++ [']', '(']).drop i) ++
          (httpsChars ++ (path ++ ')' :: post))) = none := by
      intro i hi
      apply tryProto_none_head
      cases hX : ('[' :: label ++ [']', '(']).drop i with
      | nil =>
        rw [List.drop_eq_nil_iff] at hX
        omega
      | cons x xs =>
        have hxA : x ∈ ('[' :: label ++ [']', '(']) := by
          have hx0 : x ∈ ('[' :: label ++ [']', '(']).drop i := by
            rw [hX]
            simp
          exact List.Sublist.mem hx0 (List.drop_sublist _ _)
        have hxh : x ≠ 'h' := by
          rcases List.mem_cons.mp hxA with rfl | hx2
          · decide
          · rcases List.mem_append.mp hx2 with hx3 | hx3
            · intro he
              exact hlab (he ▸ hx3)
            · simp at hx3
              rcases hx3 with rfl | rfl <;> decide
        rw [List.cons_append]
        simp only [List.head?_cons]
        intro hcc
        exact hxh (Option.some.inj hcc)
    have hstep1 : scan false (('[' :: label ++ [']', '(']) ++
        (httpsChars ++ (path ++ ')' :: post))) =
        ('[' :: label ++ [']', '(']) ++
          scan (lastLt false ('[' :: label ++ [']', '(']))
            (httpsChars ++ (path ++ ')' :: post)) :=
      scan_append_inert _ _ false hAinert
    have hlastA : lastLt false ('[' :: label ++ [']', '(']) = false := by
      unfold lastLt
      rw [show ('[' :: label ++ [']', '(']) = ('[' :: label ++ [']']) ++ ['('] by simp,
        List.getLast?_concat]
      decide
    rw [hstep1, hlastA]
    have hTW : (path ++ ')' :: post).takeWhile isUrlChar = path := by
      rw [takeWhile_append_all hurl]
      simp [List.takeWhile_cons, (by decide : isUrlChar ')' = false)]
    have hDW : (path ++ ')' :: post).dropWhile isUrlChar = ')' :: post := by
      rw [dropWhile_append_all hurl]
      simp [List.dropWhile_cons, (by decide : isUrlChar ')' = false)]
    have hU : httpsChars ++ (path ++ ')' :: post) =
        'h' :: (httpsChars.drop 1 ++ (path ++ ')' :: post)) := by
      simp [httpsChars]
    have htpU : tryProto ('h' :: (httpsChars.drop 1 ++ (path ++ ')' :: post))) =
        some (httpsChars, path ++ ')' :: post) := by
      rw [← hU]
      exact tryProto_proto_append (Or.inl rfl) _
    rw [hU, scan_match_full htpU (by rw [hTW]; exact hpath) (by rw [hDW]; simp),
      hTW, hDW]
    have hparen : scan false (')' :: post) = ')' :: scan false post := by
      rw [scan_copy_noproto (tryProto_none_head (by simp))]
      rfl
    rw [hparen]
  · exact scan_wrapped_block post (Or.inl rfl) hnh

/-- Witness for `c6_amended` at a concrete label and path. -/
theorem c6_witness :
    scan false ('<' :: (httpsChars ++ ['/', 'i', 'n', 't', 'r', 'o']) ++ '>' :: []) =
      '<' :: (httpsChars ++ ['/', 'i', 'n', 't', 'r', 'o']) ++ '>' :: scan false [] :=
  (c6_amended ['d', 'o', 'c', 's'] ['/', 'i', 'n', 't', 'r', 'o'] [] (by decide)
    (by decide) (by decide) (by decide)).2

/-- C7, counterexample to the claim as stated: wrapping
`https://xhttps://yz` yields `<https://xhttps://yz>`, and a second pass
re-wraps the embedded scheme, yielding `<https://x<https://y>z>`. -/
theorem c7_counterexample :
    wrap_urls_for_discord (wrap_urls_for_discord "https://xhttps://yz") ≠
      wrap_urls_for_discord "https://xhttps://yz" := by decide

/-- C7, amended.  `wrap_urls_for_discord` is idempotent on every text in
which no occurrence of `http` immediately follows a URL character — that is,
no URL of the text embeds a nested scheme marker.  The counterexample shows
idempotence fails without this restriction. -/
theorem c7_amended (t : String) (h : goodB t.data = true) :
    wrap_urls_for_discord (wrap_urls_for_discord t) = wrap_urls_for_discord t :=
  congrArg String.mk (scan_idem_aux t.data.length t.data false (Nat.le_refl _) h)

/-- Witness for `c7_amended` at a concrete reply text. -/
theorem c7_witness :
    goodB "see https://docs.zocomputer.com/intro now".data = true ∧
      wrap_urls_for_discord
          (wrap_urls_for_discord "see https://docs.zocomputer.com/intro now") =
        wrap_urls_for_discord "see https://docs.zocomputer.com/intro now" :=
  ⟨by decide, c7_amended "see https://docs.zocomputer.com/intro now" (by decide)⟩
